import Mathlib

/-!
Shallow embedding of the "paste" subsystem of `r_tools`
(`src/r_tools/tools/paste_chunks.py`): text helpers, the blank-line
policy, line splitting, block rendering, first-fit packing, capacity
resolution and the overall `run_paste` pipeline, together with theorems
settling the specification claims about them.

Text is modelled as `List Char`; Python `int` values that may be
negative (capacities, overflow allowances) are modelled as `Int`,
counts as `Nat`.
-/

/-- Text content, modelled as a list of characters. -/
abbrev Str := List Char

/-- Coerce a Lean string literal to our text model. -/
def strL (s : String) : Str := s.data

/-- Line count as computed throughout `paste_chunks.py`:
`text.count("\n")` (source line 333, "counts trailing newline as line"). -/
def countNL (t : Str) : Nat := t.count '\n'

/-- Decimal rendering of a natural number (Python `f"{n}"`). -/
def natStr (n : Nat) : Str := (Nat.repr n).data

/-- Python `f"{n:02d}"`: zero-pad to two digits. -/
def pad2 (n : Nat) : Str := if n < 10 then '0' :: natStr n else natStr n

/-- Python `"\n".join(xs)`. -/
def joinNL (xs : List Str) : Str := List.intercalate (strL "\n") xs

/-- Characters Python's `str.splitlines` treats as line boundaries
(`\n`, `\r`, `\v`, `\f`, FS, GS, RS, NEL, LS, PS); `\r\n` is
additionally recognised as a single two-character boundary. -/
def isLineBreak (c : Char) : Bool :=
  c = '\n' || c = '\r' || c = '\x0b' || c = '\x0c' ||
  c.val = 0x1c || c.val = 0x1d || c.val = 0x1e ||
  c.val = 0x85 || c.val = 0x2028 || c.val = 0x2029

/-- `str.splitlines(keepends=True)`: split at line boundaries, keeping
the boundary characters with the line they terminate.  `acc` holds the
(reversed) characters of the line being scanned. -/
def splitKE (acc : Str) : Str → List Str
  | [] => if acc = [] then [] else [acc.reverse]
  | c :: rest =>
    if c = '\r' then
      match rest with
      | [] => (acc.reverse ++ ['\r']) :: splitKE [] []
      | d :: rest2 =>
        if d = '\n' then (acc.reverse ++ ['\r', '\n']) :: splitKE [] rest2
        else (acc.reverse ++ ['\r']) :: splitKE [] (d :: rest2)
    else if isLineBreak c then (acc.reverse ++ [c]) :: splitKE [] rest
    else splitKE (c :: acc) rest

/-- `str.splitlines()` (no keepends): as `splitKE` but boundary
characters are dropped. -/
def splitNoKE (acc : Str) : Str → List Str
  | [] => if acc = [] then [] else [acc.reverse]
  | c :: rest =>
    if c = '\r' then
      match rest with
      | [] => acc.reverse :: splitNoKE [] []
      | d :: rest2 =>
        if d = '\n' then acc.reverse :: splitNoKE [] rest2
        else acc.reverse :: splitNoKE [] (d :: rest2)
    else if isLineBreak c then acc.reverse :: splitNoKE [] rest
    else splitNoKE (c :: acc) rest

/-- ASCII whitespace stripped by Python `str.strip()`. -/
def isPySpace (c : Char) : Bool :=
  c = ' ' || c = '\t' || c = '\n' || c = '\r' || c = '\x0b' || c = '\x0c'

/-- `ln.strip() == ""`: the line consists of whitespace only. -/
def isBlankLine (l : Str) : Bool := l.all isPySpace

/-- The `"collapse"` blank-line policy loop (source lines 316-326):
keep at most one blank line per run of blanks; a kept blank is emitted
as the empty line, exactly as the source appends `""`. -/
def collapseGo (streak : Nat) : List Str → List Str
  | [] => []
  | l :: ls =>
    if isBlankLine l then
      if streak + 1 ≤ 1 then [] :: collapseGo (streak + 1) ls
      else collapseGo (streak + 1) ls
    else l :: collapseGo 0 ls

/-- Blank-line policy applied to code text (source lines 311-327):
`"drop"` removes blank lines, `"collapse"` limits blank runs to one,
anything else leaves the text untouched.  The rebuilt text is
`"\n".join(lines)` of the (boundary-stripped) split lines. -/
def applyPolicy (policy : String) (t : Str) : Str :=
  if policy = "drop" then
    joinNL ((splitNoKE [] t).filter (fun l => !isBlankLine l))
  else if policy = "collapse" then
    joinNL (collapseGo 0 (splitNoKE [] t))
  else t

/-- `if not text.endswith("\n"): text += "\n"` (source lines 329-330,
345-346). -/
def ensureNL (t : Str) : Str :=
  if t.getLast? = some '\n' then t else t ++ ['\n']

/-- A candidate file as seen by `run_paste`: its root-relative POSIX
path and its decoded content.  (`_read_text` decodes UTF-8 with
`errors="replace"`; we model the decoded character sequence directly,
so the binary sniff below inspects the leading character window.) -/
structure SrcFile where
  rel : Str
  content : Str
deriving DecidableEq, Repr

/-- `_is_binary` (source lines 76-81): the file is binary when its
leading 4096-byte window contains a NUL byte. -/
def isBinaryFile (f : SrcFile) : Bool := (f.content.take 4096).contains '\x00'

/-- Python `str.strip()` restricted to ASCII whitespace. -/
def pyStrip (s : Str) : Str :=
  ((s.dropWhile isPySpace).reverse.dropWhile isPySpace).reverse

/-- `if s.startswith("./"): s = s[2:]` (source lines 96-97). -/
def dropDotSlash (s : Str) : Str :=
  match s with
  | '.' :: '/' :: rest => rest
  | _ => s

/-- `any(ch in s for ch in "*?[]")`. -/
def hasWildcard (s : Str) : Bool :=
  s.any (fun c => c = '*' || c = '?' || c = '[' || c = ']')

/-- `("/" not in s) and not any(ch in s for ch in "*?[]")`
(source line 98). -/
def isPureFilename (s : Str) : Bool := !s.contains '/' && !hasWildcard s

/-- `_normalize_globs` (source lines 83-105): strip each pattern, drop
empty ones, remove a leading `./`, and under filename search expand a
pure filename into the bare name followed by its any-depth variant. -/
def normalizeGlobs (filenameSearch : Bool) (globs : List Str) : List Str :=
  globs.foldl
    (fun out g =>
      let s := pyStrip g
      if s = [] then out
      else
        let s := dropDotSlash s
        if filenameSearch && isPureFilename s then out ++ [s, strL "**/" ++ s]
        else out ++ [s])
    []

/-- One rendered block: the header fields together with the framed
content (`content` is exactly the text between the BEGIN CODE and END
CODE marker lines). -/
structure Block where
  path : Str
  totalLines : Nat
  lines : Nat
  chunkIdx : Nat
  chunkTot : Nat
  sha : Str
  content : Str
deriving DecidableEq, Repr

/-- `"\n".join(header) + "\n" + text + "\n".join(footer) + "\n"`
(source lines 349-358 and 367-376). -/
def Block.render (b : Block) : Str :=
  joinNL
    [strL "===== BEGIN FILE =====",
     strL "PATH: " ++ b.path,
     strL "TOTAL_LINES: " ++ natStr b.totalLines,
     strL "LINES: " ++ natStr b.lines,
     strL "CHUNK: " ++ natStr b.chunkIdx ++ strL "/" ++ natStr b.chunkTot,
     strL "SHA256: " ++ b.sha,
     strL "----- BEGIN CODE -----"]
  ++ strL "\n" ++ b.content
  ++ joinNL [strL "----- END CODE -----", strL "===== END FILE ====="] ++ strL "\n"

/-- Loop of `[l[i:i+n] for i in range(0, len(l), n)]` (source line
341), with an explicit fuel argument bounding the number of loop
iterations so the recursion is structural.  Whenever `0 < n` and the
fuel is at least `l.length`, the fuel never runs out, so the middle
case is unreachable in the pipeline (which checks
`split_chunk_lines > 0` before chunking). -/
def chunkGo (n : Nat) : Nat → List α → List (List α)
  | _, [] => []
  | 0, l => [l]
  | fuel + 1, x :: xs => (x :: xs).take n :: chunkGo n fuel ((x :: xs).drop n)

/-- `[l[i:i+n] for i in range(0, len(l), n)]` (source line 341). -/
def chunkEvery (n : Nat) (l : List α) : List (List α) := chunkGo n l.length l

/-- The resolved `paste` configuration consumed by `run_paste`
(source lines 252-277).  `outDirAbsolute` records whether the
configured `out_dir` is an absolute path: when it is not, the output
directory is resolved as `root / out_dir` (source line 255), which
matters for the `mkdir` behaviour under a bad root.  `idxDisplay` is
the display string the final `Index:` line prints (a path computed
outside the engine's algorithmic core). -/
structure RunCfg where
  maxLines : Int
  allowBinary : Bool
  targetFiles : Int
  softOverflow : Int
  forceSingleFile : Bool
  blankLines : String
  allowSplit : Bool
  splitChunkLines : Int
  outDirAbsolute : Bool
  idxDisplay : Str
deriving DecidableEq

/-- Render one selected file into its blocks (source lines 308-379),
parameterised by the digest function `h` (`_sha256_bytes` composed
with UTF-8 encoding). -/
def fileBlocks (h : Str → Str) (cfg : RunCfg) (f : SrcFile) : List Block :=
  let text := ensureNL (applyPolicy cfg.blankLines f.content)
  let codeLineCount := countNL text
  if cfg.allowSplit ∧ 0 < cfg.splitChunkLines ∧ (codeLineCount : Int) > cfg.splitChunkLines then
    let linesWithEnd := splitKE [] text
    let chunks := chunkEvery cfg.splitChunkLines.toNat linesWithEnd
    let totalChunks := chunks.length
    chunks.enum.map (fun p =>
      let chunkText := ensureNL p.2.flatten
      { path := f.rel, totalLines := codeLineCount, lines := countNL chunkText,
        chunkIdx := p.1 + 1, chunkTot := totalChunks,
        sha := h chunkText, content := chunkText })
  else
    [{ path := f.rel, totalLines := codeLineCount, lines := codeLineCount,
       chunkIdx := 1, chunkTot := 1, sha := h text, content := text }]

/-- `PasteItem` (source lines 28-34), extended with the header fields
(`LINES`, `CHUNK: i/n`) that the writer later recovers from `rendered`
by anchored regex search (source lines 412-422); the header emits those
lines before the content and no earlier header line matches the
anchored patterns, so the first match is the header's value, which we
carry alongside. -/
structure PasteItem where
  rel_path : Str
  rendered : Str
  lines : Int
  dispLines : Nat
  chunkIdx : Nat
  chunkTot : Nat
deriving DecidableEq, Repr

/-- Inner loop of `_first_fit_pack` (source lines 56-62): place the
item into the first bucket whose running total still fits under
`limit`; `none` when no existing bucket fits.  Buckets are paired with
their running totals (the parallel `buckets`/`used` lists). -/
def tryPlace (limit : Int) (it : PasteItem) :
    List (List PasteItem × Int) → Option (List (List PasteItem × Int))
  | [] => none
  | (b, u) :: rest =>
    if u + it.lines ≤ limit then some ((b ++ [it], u + it.lines) :: rest)
    else
      match tryPlace limit it rest with
      | some rest' => some ((b, u) :: rest')
      | none => none

/-- Body of the `for it in items` loop of `_first_fit_pack`
(source lines 49-65). -/
def packStep (limit : Int) (st : List (List PasteItem × Int)) (it : PasteItem) :
    List (List PasteItem × Int) :=
  if it.lines > limit then st ++ [([it], it.lines)]
  else
    match tryPlace limit it st with
    | some st' => st'
    | none => st ++ [([it], it.lines)]

/-- `_first_fit_pack` (source lines 36-67). -/
def firstFitPack (items : List PasteItem) (capacity : Int) (soft_overflow : Int := 0) :
    List (List PasteItem) :=
  let limit := max 1 capacity + max 0 soft_overflow
  (items.foldl (packStep limit) []).map Prod.fst

/-- `items.sort(key=lambda it: it.lines, reverse=True)` (source line
382): Python's sort is stable, and a stable descending sort is exactly
insertion sort under the relation `b.lines ≤ a.lines`. -/
def sortBlocksDesc (items : List PasteItem) : List PasteItem :=
  List.insertionSort (fun a b => b.lines ≤ a.lines) items

/-- Capacity resolution (source lines 388-395):
`ideal = max(1, ceil(total / target))`, capped at `max_lines`; without
a positive `target_files` the capacity is `max_lines` directly.
`math.ceil` of the exact quotient equals `(a + b - 1) / b` in integer
arithmetic. -/
def capacityFor (cfg : RunCfg) (totalItemLines : Nat) : Int :=
  if 0 < cfg.targetFiles then
    let t := cfg.targetFiles.toNat
    min (max 1 (((totalItemLines + t - 1) / t : Nat) : Int)) cfg.maxLines
  else cfg.maxLines

/-- State of the resolved `project_root` path: a nonexistent path, an
existing non-directory (a regular file), or an existing directory.
The source performs no check of its own on the root; the two bad
states behave differently only at `out_dir.mkdir` (see `runPaste`). -/
inductive RootState
  | missing
  | file
  | dir
deriving DecidableEq, Repr

/-- The file-system view `run_paste` sees: the state of the resolved
project root, and the selected candidate files (in the deterministic
sorted order `_gather_files` returns) when it is a directory. -/
structure FS where
  root : RootState
  files : List SrcFile
deriving DecidableEq

/-- Candidates from the include globs (source lines 161-172, 193):
`pathlib.Path.glob` silently yields no matches under a missing or
non-directory root (its selector returns early when the parent is not
a directory), so a bad root makes every include glob come back
empty. -/
def gatherFiles (fs : FS) : List SrcFile :=
  match fs.root with
  | .dir => fs.files
  | _ => []

/-- Everything one `run_paste` invocation emits: the numbered paste
files (name, content), the content of `index.txt`, and the lines
printed to stdout. -/
structure RunOut where
  pasteFiles : List (Str × Str)
  indexFile : Str
  summary : List Str
deriving DecidableEq

/-- Wrap a `Block` as the `PasteItem` appended at source lines 361 and
379: `lines` is `rendered.count("\n")`; the header fields the writer
later re-extracts ride along. -/
def itemOfBlock (rel : Str) (b : Block) : PasteItem :=
  { rel_path := rel, rendered := b.render, lines := (countNL b.render : Int),
    dispLines := b.lines, chunkIdx := b.chunkIdx, chunkTot := b.chunkTot }

/-- The item-building loop of `run_paste` (source lines 294-379):
skip binary files unless allowed, then render each file's blocks. -/
def buildItems (h : Str → Str) (cfg : RunCfg) (files : List SrcFile) : List PasteItem :=
  (files.filter (fun f => cfg.allowBinary || !isBinaryFile f)).flatMap
    (fun f => (fileBlocks h cfg f).map (itemOfBlock f.rel))

/-- Index display of one item (source lines 418-422); every block
carries a `CHUNK: i/n` header line, so the chunk suffix is always
shown. -/
def itemDisp (it : PasteItem) : Str :=
  it.rel_path ++ strL " (" ++ natStr it.chunkIdx ++ strL "/" ++ natStr it.chunkTot ++ strL ")"

/-- `f"paste_{idx:02d}.txt"` (source line 406). -/
def pasteFileName (i : Nat) : Str := strL "paste_" ++ pad2 i ++ strL ".txt"

/-- Content of `index.txt` (source lines 434-452). -/
def indexText (sections : List (List (Str × Nat))) (pasteNames : List Str) : Str :=
  let nPaste := pasteNames.length
  strL "# index over innhold i paste_*.txt\n" ++
  strL "# Format per seksjon:\n" ++
  strL "# Del <pastefile_number> av totalt <tpastefile_number> deler:\n" ++
  strL "# <relativ/path> | <linjer>\n\n" ++
  (sections.enum.map (fun p =>
      strL "Del " ++ natStr (p.1 + 1) ++ strL " av totalt " ++ natStr nPaste ++
      strL " deler:\n" ++
      (p.2.map (fun row => row.1 ++ strL "  |  " ++ natStr row.2 ++ strL " linjer\n")).flatten ++
      strL "\n")).flatten ++
  strL "\n# Genererte filer:\n" ++
  (pasteNames.map (fun nm => nm ++ strL "\n")).flatten ++
  strL "\nTotalt filer: " ++ natStr (sections.map List.length).sum ++ strL "\n" ++
  strL "Antall paste-filer: " ++ natStr nPaste ++ strL "\n"

/-- Lines printed to stdout (source lines 430-431 and 455-469):
the per-paste-file `skrev …` lines followed by the closing summary. -/
def summaryText (written : List (Str × Nat)) (sections : List (List (Str × Nat)))
    (idxDisplay : Str) : List Str :=
  written.map (fun w => strL "skrev " ++ w.1 ++ strL "  (" ++ natStr w.2 ++ strL " linjer)") ++
  [strL "\n== Oppsummering ==",
   strL "Totalt filer: " ++ natStr (sections.map List.length).sum,
   strL "Totalt linjer: " ++ natStr ((sections.map (fun s => (s.map Prod.snd).sum)).sum),
   strL "Antall paste-filer: " ++ natStr written.length,
   strL "Index: " ++ idxDisplay]

/-- `pcfg.out_dir.mkdir(parents=True, exist_ok=True)` (source line
291) raises an uncaught `NotADirectoryError` exactly when the output
directory must be created under a root that exists as a regular file,
i.e. when `out_dir` is relative (resolved as `root / out_dir`) and the
root is a file: `exist_ok` only suppresses the error for an existing
directory target, and `parents=True` happily creates the whole tree
under a *missing* root.  (Verified against CPython `pathlib`.) -/
def mkdirFails (fs : FS) (cfg : RunCfg) : Bool :=
  match fs.root with
  | .file => !cfg.outDirAbsolute
  | _ => false

/-- `run_paste` (source lines 236-469) for a non-`list_only` run,
parameterised by the digest function `h`.  It contains no explicit
`raise` and no root-path check: the only abort is the uncaught
`NotADirectoryError` from `out_dir.mkdir` (source line 291, modelled
by `mkdirFails`), surfaced here as `Except.error`.  In the source the
candidate gathering (side-effect-free) runs just before the `mkdir`,
and nothing is read or written before the `mkdir`; the model assumes
the `mkdir` succeeds in every other situation. -/
def runPaste (h : Str → Str) (fs : FS) (cfg : RunCfg) : Except Str RunOut :=
  if mkdirFails fs cfg then .error (strL "NotADirectoryError") else
  let files := gatherFiles fs
  let items := buildItems h cfg files
  let totalItemLines : Int := (items.map (·.lines)).sum
  let sorted := sortBlocksDesc items
  let buckets :=
    if cfg.forceSingleFile then (if sorted = [] then [] else [sorted])
    else firstFitPack sorted (capacityFor cfg totalItemLines.toNat) cfg.softOverflow
  let bucketOut := buckets.enum.map (fun p =>
    (pasteFileName (p.1 + 1), (p.2.map (·.rendered)).flatten,
     (p.2.map (fun it => it.lines.toNat)).sum))
  let sections := buckets.map (fun b => b.map (fun it => (itemDisp it, it.dispLines)))
  let names := bucketOut.map (fun w => w.1)
  Except.ok
    { pasteFiles := bucketOut.map (fun w => (w.1, w.2.1)),
      indexFile := indexText sections names,
      summary := summaryText (bucketOut.map (fun w => (w.1, w.2.2))) sections cfg.idxDisplay }

/-- Project the run result out of the `Except` layer (empty output on
an aborted run). -/
def outOr (r : Except Str RunOut) : RunOut :=
  match r with
  | .ok o => o
  | .error _ => { pasteFiles := [], indexFile := [], summary := [] }

/-! ### Helper lemmas about line splitting, chunking and counting -/

theorem splitKE_flatten (acc t : Str) :
    (splitKE acc t).flatten = acc.reverse ++ t := by
  induction acc, t using splitKE.induct with
  | case1 => simp [splitKE]
  | case2 acc hacc => simp [splitKE, hacc]
  | case3 acc ih => simp [splitKE, ih]
  | case4 acc rest2 ih => simp [splitKE, ih]
  | case5 acc d rest2 hd ih => simp [splitKE, hd, ih]
  | case6 acc c rest hc hbrk ih =>
    rw [splitKE.eq_def]
    simp [hc, hbrk, ih]
  | case7 acc c rest hc hbrk ih =>
    rw [splitKE.eq_def]
    simp [hc, hbrk, ih]

theorem dropLast_concat_noNL (acc : Str)
    (hacc : ∀ c ∈ acc, isLineBreak c = false) (x : Char) :
    ∀ c ∈ (acc.reverse ++ [x]).dropLast, c ≠ '\n' := by
  rw [List.dropLast_concat]
  intro c hc heq
  subst heq
  have := hacc '\n' (by simpa using hc)
  simp [isLineBreak] at this

theorem dropLast_crlf_noNL (acc : Str)
    (hacc : ∀ c ∈ acc, isLineBreak c = false) :
    ∀ c ∈ (acc.reverse ++ ['\x0d', '\n']).dropLast, c ≠ '\n' := by
  have h2 : acc.reverse ++ ['\x0d', '\n'] = (acc.reverse ++ ['\x0d']) ++ ['\n'] := by simp
  rw [h2, List.dropLast_concat]
  intro c hc heq
  subst heq
  rcases List.mem_append.mp hc with hc | hc
  · have := hacc '\n' (by simpa using hc)
    simp [isLineBreak] at this
  · simp at hc

/-- Every line `splitlines(keepends=True)` produces is nonempty and
contains `'\n'` (if at all) only as its final character. -/
theorem splitKE_elem_structure (acc t : Str)
    (hacc : ∀ c ∈ acc, isLineBreak c = false) :
    ∀ l ∈ splitKE acc t, l ≠ [] ∧ ∀ c ∈ l.dropLast, c ≠ '\n' := by
  induction acc, t using splitKE.induct with
  | case1 => simp [splitKE]
  | case2 acc hacc2 =>
    simp only [splitKE, if_neg hacc2, List.mem_singleton]
    intro l hl
    subst hl
    refine ⟨by simpa using hacc2, ?_⟩
    intro c hc heq
    subst heq
    have hmem : '\n' ∈ acc := by
      have := List.dropLast_subset acc.reverse hc
      simpa using this
    have := hacc '\n' hmem
    simp [isLineBreak] at this
  | case3 acc ih =>
    rw [splitKE.eq_def]
    simp only [if_pos rfl, splitKE]
    intro l hl
    rcases List.mem_cons.mp hl with h | h
    · subst h
      exact ⟨by simp, dropLast_concat_noNL acc hacc _⟩
    · simp at h
  | case4 acc rest2 ih =>
    rw [splitKE.eq_def]
    simp only [if_pos rfl]
    intro l hl
    rcases List.mem_cons.mp hl with h | h
    · subst h
      exact ⟨by simp, dropLast_crlf_noNL acc hacc⟩
    · exact ih (by intro c hc; cases hc) l h
  | case5 acc d rest2 hd ih =>
    rw [splitKE.eq_def]
    simp only [if_pos rfl, if_neg hd]
    intro l hl
    rcases List.mem_cons.mp hl with h | h
    · subst h
      exact ⟨by simp, dropLast_concat_noNL acc hacc _⟩
    · exact ih (by intro c hc; cases hc) l h
  | case6 acc c rest hc hbrk ih =>
    rw [splitKE.eq_def]
    simp only [if_neg hc, if_pos hbrk]
    intro l hl
    rcases List.mem_cons.mp hl with h | h
    · subst h
      exact ⟨by simp, dropLast_concat_noNL acc hacc _⟩
    · exact ih (by intro c' hc'; cases hc') l h
  | case7 acc c rest hc hbrk ih =>
    rw [splitKE.eq_def]
    simp only [if_neg hc, if_neg hbrk]
    intro l hl
    refine ih ?_ l hl
    intro c' hc'
    rcases List.mem_cons.mp hc' with h | h
    · subst h
      simpa using hbrk
    · exact hacc c' h

/-- When every line-break character of `t` is `'\n'` and `t` ends with
a newline, every line `splitlines(keepends=True)` produces ends with
`'\n'`. -/
theorem splitKE_elem_lastNL (acc t : Str)
    (ht : ∀ c ∈ t, isLineBreak c = true → c = '\n')
    (hend : t.getLast? = some '\n' ∨ (t = [] ∧ acc = [])) :
    ∀ l ∈ splitKE acc t, l.getLast? = some '\n' := by
  induction acc, t using splitKE.induct with
  | case1 => simp [splitKE]
  | case2 acc hacc2 =>
    rcases hend with h | ⟨_, h⟩
    · simp at h
    · exact absurd h hacc2
  | case3 acc ih =>
    have := ht '\x0d' (by simp) (by decide)
    simp at this
  | case4 acc rest2 ih =>
    have := ht '\x0d' (by simp) (by decide)
    simp at this
  | case5 acc d rest2 hd ih =>
    have := ht '\x0d' (by simp) (by decide)
    simp at this
  | case6 acc c rest hc hbrk ih =>
    have hcn : c = '\n' := ht c (by simp) hbrk
    subst hcn
    rw [splitKE.eq_def]
    simp only [if_neg hc, if_pos hbrk]
    intro l hl
    rcases List.mem_cons.mp hl with h | h
    · subst h
      exact List.getLast?_concat _
    · refine ih (fun c' hc' hb => ht c' (List.mem_cons_of_mem _ hc') hb) ?_ l h
      cases rest with
      | nil => exact Or.inr ⟨rfl, rfl⟩
      | cons y ys =>
        rcases hend with hend | ⟨hend, _⟩
        · rw [List.getLast?_cons_cons] at hend
          exact Or.inl hend
        · cases hend
  | case7 acc c rest hc hbrk ih =>
    rw [splitKE.eq_def]
    simp only [if_neg hc, if_neg hbrk]
    intro l hl
    refine ih (fun c' hc' hb => ht c' (List.mem_cons_of_mem _ hc') hb) ?_ l hl
    cases rest with
    | nil =>
      exfalso
      rcases hend with hend | ⟨hend, _⟩
      · simp at hend
        subst hend
        exact absurd (by decide) hbrk
      · cases hend
    | cons y ys =>
      rcases hend with hend | ⟨hend, _⟩
      · rw [List.getLast?_cons_cons] at hend
        exact Or.inl hend
      · cases hend

theorem chunkGo_flatten {α : Type} (n : Nat) (hn : 0 < n) :
    ∀ (fuel : Nat) (l : List α), l.length ≤ fuel → (chunkGo n fuel l).flatten = l := by
  intro fuel
  induction fuel with
  | zero =>
    intro l hl
    have : l = [] := List.length_eq_zero.mp (Nat.le_zero.mp hl)
    subst this
    simp [chunkGo]
  | succ fuel ih =>
    intro l hl
    cases l with
    | nil => simp [chunkGo]
    | cons x xs =>
      have hrec : ((x :: xs).drop n).length ≤ fuel := by
        simp only [List.length_drop, List.length_cons]
        simp only [List.length_cons] at hl
        omega
      simp only [chunkGo, List.flatten_cons, ih _ hrec, List.take_append_drop]

theorem chunkGo_mem {α : Type} (n : Nat) (hn : 0 < n) :
    ∀ (fuel : Nat) (l : List α), l.length ≤ fuel →
      ∀ g ∈ chunkGo n fuel l, g ≠ [] ∧ g.length ≤ n ∧ ∀ x ∈ g, x ∈ l := by
  intro fuel
  induction fuel with
  | zero =>
    intro l hl
    have : l = [] := List.length_eq_zero.mp (Nat.le_zero.mp hl)
    subst this
    simp [chunkGo]
  | succ fuel ih =>
    intro l hl
    cases l with
    | nil => simp [chunkGo]
    | cons x xs =>
      intro g hg
      simp only [chunkGo, List.mem_cons] at hg
      rcases hg with h | h
      · subst h
        refine ⟨?_, ?_, fun y hy => List.take_subset _ _ hy⟩
        · cases n with
          | zero => exact absurd hn (by simp)
          | succ m => simp [List.take_cons]
        · simp only [List.length_take]
          exact min_le_left _ _
      · have hrec : ((x :: xs).drop n).length ≤ fuel := by
          simp only [List.length_drop, List.length_cons]
          simp only [List.length_cons] at hl
          omega
        obtain ⟨h1, h2, h3⟩ := ih _ hrec g h
        exact ⟨h1, h2, fun y hy => List.drop_subset _ _ (h3 y hy)⟩

theorem flatten_getLast?_eq (g : List Str) (hg : g ≠ [])
    (hne : ∀ l ∈ g, l ≠ []) :
    g.flatten.getLast? = (g.getLast hg).getLast? := by
  induction g with
  | nil => exact absurd rfl hg
  | cons x rest ih =>
    cases rest with
    | nil => simp
    | cons y ys =>
      have hrest : (y :: ys : List Str) ≠ [] := by simp
      have hflat : ((y :: ys : List (List Char)).flatten) ≠ [] := by
        intro hfl
        have := List.flatten_eq_nil_iff.mp hfl y (by simp)
        exact hne y (by simp) this
      rw [List.flatten_cons, List.getLast?_append, List.getLast_cons hrest,
        ← ih hrest (fun l hl => hne l (List.mem_cons_of_mem _ hl))]
      cases hlast : ((y :: ys : List (List Char)).flatten).getLast? with
      | none => exact absurd (List.getLast?_eq_none_iff.mp hlast) hflat
      | some b => simp

theorem countNL_of_dropLast_noNL (l : Str) (h : ∀ c ∈ l.dropLast, c ≠ '\n') :
    countNL l ≤ 1 ∧ (l.getLast? ≠ some '\n' → countNL l = 0) := by
  cases hl : l with
  | nil => simp [countNL]
  | cons x xs =>
    subst hl
    have hne : (x :: xs : Str) ≠ [] := by simp
    have hdecomp := List.dropLast_append_getLast hne
    have hcnt : countNL (x :: xs) =
        countNL ((x :: xs).dropLast) + countNL [(x :: xs).getLast hne] := by
      conv_lhs => rw [← hdecomp]
      exact List.count_append _ _ _
    have hzero : countNL ((x :: xs).dropLast) = 0 := by
      rw [countNL, List.count_eq_zero]
      intro hmem
      exact h '\n' hmem rfl
    have hlast? : (x :: xs).getLast? = some ((x :: xs).getLast hne) :=
      List.getLast?_eq_getLast _ hne
    constructor
    · rw [hcnt, hzero]
      simp [countNL, List.count_singleton']
      split <;> simp_all
    · intro hnl
      rw [hcnt, hzero]
      simp only [Nat.zero_add, countNL]
      rw [List.count_singleton']
      have : ¬((x :: xs).getLast hne = '\n') := by
        intro heq
        exact hnl (by rw [hlast?, heq])
      simp [this]

/-- Joining a chunk of at most `n` whole lines and ensuring its final
newline yields at most `n` newline characters. -/
theorem countNL_chunk_le (g : List Str) (n : Nat) (hn : 0 < n) (hlen : g.length ≤ n)
    (helem : ∀ l ∈ g, l ≠ [] ∧ ∀ c ∈ l.dropLast, c ≠ '\n') :
    countNL (ensureNL g.flatten) ≤ n := by
  have hsum : countNL g.flatten = (g.map countNL).sum := by
    simpa [countNL] using List.count_flatten '\n' g
  have hbound : ∀ m ∈ g.map countNL, m ≤ 1 := by
    intro m hm
    rcases List.mem_map.mp hm with ⟨l, hl, rfl⟩
    exact (countNL_of_dropLast_noNL l (helem l hl).2).1
  have hsum_le : (g.map countNL).sum ≤ g.length := by
    have := List.sum_le_card_nsmul (g.map countNL) 1 hbound
    simpa using this
  rcases eq_or_ne g [] with rfl | hg
  · simp [ensureNL, countNL]
    omega
  · by_cases hend : g.flatten.getLast? = some '\n'
    · rw [ensureNL, if_pos hend, hsum]
      omega
    · rw [ensureNL, if_neg hend]
      have hlast0 : countNL (g.getLast hg) = 0 := by
        refine (countNL_of_dropLast_noNL _ (helem _ (List.getLast_mem hg)).2).2 ?_
        rw [← flatten_getLast?_eq g hg (fun l hl => (helem l hl).1)]
        exact hend
      have hdecomp := List.dropLast_append_getLast hg
      have hsplit : (g.map countNL).sum =
          (g.dropLast.map countNL).sum + countNL (g.getLast hg) := by
        conv_lhs => rw [← hdecomp]
        simp
      have hdrop_le : (g.dropLast.map countNL).sum ≤ g.dropLast.length := by
        have hb : ∀ m ∈ g.dropLast.map countNL, m ≤ 1 := by
          intro m hm
          rcases List.mem_map.mp hm with ⟨l, hl, rfl⟩
          exact (countNL_of_dropLast_noNL l (helem l (List.dropLast_subset _ hl)).2).1
        have := List.sum_le_card_nsmul (g.dropLast.map countNL) 1 hb
        simpa using this
      have hlen' : g.dropLast.length = g.length - 1 := by
        simp [List.length_dropLast]
      have hcons : countNL (g.flatten ++ ['\n']) = (g.map countNL).sum + 1 := by
        rw [countNL, List.count_append, ← countNL, ← countNL, hsum]
        simp [countNL]
      rw [hcons, hsplit, hlast0]
      have hgl : 1 ≤ g.length := by
        cases g
        · exact absurd rfl hg
        · simp
      omega

theorem ensureNL_getLast? (t : Str) : (ensureNL t).getLast? = some '\n' := by
  rw [ensureNL]
  split
  · assumption
  · exact List.getLast?_concat _

theorem ensureNL_ne_nil (t : Str) : ensureNL t ≠ [] := by
  intro h
  have := ensureNL_getLast? t
  rw [h] at this
  simp at this

theorem ensureNL_of_endsNL {t : Str} (h : t.getLast? = some '\n') : ensureNL t = t := by
  rw [ensureNL, if_pos h]

/-! ### Packer invariant (first-fit with soft overflow) -/

/-- Total line count of a bucket. -/
def sumLines (b : List PasteItem) : Int := (b.map (fun it => it.lines)).sum

/-- Invariant of the packing state: each running total is its bucket's
line sum, and each bucket respects the limit unless it is a single
oversized item. -/
def PackInv (limit : Int) (st : List (List PasteItem × Int)) : Prop :=
  ∀ p ∈ st, p.2 = sumLines p.1 ∧
    (p.2 ≤ limit ∨ ∃ it, p.1 = [it] ∧ it.lines > limit)

theorem tryPlace_inv {limit : Int} {it : PasteItem}
    {st st' : List (List PasteItem × Int)}
    (h : tryPlace limit it st = some st') (hinv : PackInv limit st) :
    PackInv limit st' := by
  induction st generalizing st' with
  | nil => simp [tryPlace] at h
  | cons p rest ih =>
    obtain ⟨b, u⟩ := p
    rw [tryPlace] at h
    split at h
    · rename_i hfit
      rcases Option.some.inj h with rfl
      intro q hq
      rcases List.mem_cons.mp hq with rfl | hq
      · obtain ⟨hsum, _⟩ := hinv (b, u) (List.mem_cons_self _ _)
        constructor
        · simp only [sumLines, List.map_append, List.sum_append] at hsum ⊢
          simp [hsum]
        · exact Or.inl hfit
      · exact hinv q (List.mem_cons_of_mem _ hq)
    · rename_i hnofit
      cases hrec : tryPlace limit it rest with
      | none => rw [hrec] at h; cases h
      | some rest' =>
        rw [hrec] at h
        rcases Option.some.inj h with rfl
        intro q hq
        rcases List.mem_cons.mp hq with rfl | hq
        · exact hinv (b, u) (List.mem_cons_self _ _)
        · exact ih hrec (fun r hr => hinv r (List.mem_cons_of_mem _ hr)) q hq

theorem packStep_inv {limit : Int} {st : List (List PasteItem × Int)}
    {it : PasteItem} (hinv : PackInv limit st) :
    PackInv limit (packStep limit st it) := by
  rw [packStep]
  split
  · rename_i hbig
    intro q hq
    rcases List.mem_append.mp hq with hq | hq
    · exact hinv q hq
    · rcases List.mem_singleton.mp hq with rfl
      exact ⟨by simp [sumLines], Or.inr ⟨it, rfl, hbig⟩⟩
  · rename_i hsmall
    cases hrec : tryPlace limit it st with
    | some st' => exact tryPlace_inv hrec hinv
    | none =>
      intro q hq
      rcases List.mem_append.mp hq with hq | hq
      · exact hinv q hq
      · rcases List.mem_singleton.mp hq with rfl
        refine ⟨by simp [sumLines], Or.inl ?_⟩
        omega

theorem foldl_packStep_inv (items : List PasteItem) {limit : Int}
    {st : List (List PasteItem × Int)} (hinv : PackInv limit st) :
    PackInv limit (items.foldl (packStep limit) st) := by
  induction items generalizing st with
  | nil => exact hinv
  | cons it rest ih => exact ih (packStep_inv hinv)

/-! ### Further pipeline helper lemmas -/

theorem enum_map_val {α β : Type} (l : List α) (k : α → β) :
    l.enum.map (fun p => k p.2) = l.map k := by
  have hcomp : (fun p : Nat × α => k p.2) = k ∘ Prod.snd := rfl
  rw [hcomp, ← List.map_map, List.enum_map_snd]

/-- In the split branch, the blocks' contents are exactly the chunks
(joined and newline-ensured). -/
theorem fileBlocks_split_contents (h : Str → Str) (cfg : RunCfg) (f : SrcFile)
    (hsplit : cfg.allowSplit ∧ 0 < cfg.splitChunkLines ∧
      ((countNL (ensureNL (applyPolicy cfg.blankLines f.content)) : Int) >
        cfg.splitChunkLines)) :
    (fileBlocks h cfg f).map (fun b => b.content) =
      (chunkEvery cfg.splitChunkLines.toNat
          (splitKE [] (ensureNL (applyPolicy cfg.blankLines f.content)))).map
        (fun g => ensureNL g.flatten) := by
  rw [fileBlocks]
  simp only [if_pos hsplit, List.map_map]
  exact enum_map_val _ (fun g : List Str => ensureNL g.flatten)

/-- Both render branches record the digest of exactly the block's
content. -/
theorem fileBlocks_sha (h : Str → Str) (cfg : RunCfg) (f : SrcFile)
    (b : Block) (hb : b ∈ fileBlocks h cfg f) : b.sha = h b.content := by
  rw [fileBlocks] at hb
  split at hb
  · rcases List.mem_map.mp hb with ⟨p, _, rfl⟩
    rfl
  · rcases List.mem_singleton.mp hb with rfl
    rfl

/-- A rendered block is its header (ending in the SHA256 line and the
BEGIN CODE marker line), then the content, then the END markers: the
text between the marker lines is exactly `b.content`. -/
theorem render_decomp (b : Block) :
    b.render =
      (strL "===== BEGIN FILE =====\nPATH: " ++ b.path ++
        strL "\nTOTAL_LINES: " ++ natStr b.totalLines ++
        strL "\nLINES: " ++ natStr b.lines ++
        strL "\nCHUNK: " ++ natStr b.chunkIdx ++ strL "/" ++ natStr b.chunkTot ++
        strL "\n") ++
      strL "SHA256: " ++ b.sha ++ strL "\n----- BEGIN CODE -----\n" ++
      b.content ++ strL "----- END CODE -----\n===== END FILE =====\n" := by
  rw [Block.render]
  simp only [joinNL, List.intercalate, List.intersperse, List.flatten, strL,
    List.append_assoc, List.cons_append, List.nil_append, List.append_nil]

/-- Every block's content ends with a newline (both branches pass the
content through `ensureNL`). -/
theorem fileBlocks_content_endsNL (h : Str → Str) (cfg : RunCfg) (f : SrcFile) :
    ∀ b ∈ fileBlocks h cfg f, b.content ≠ [] ∧ b.content.getLast? = some '\n' := by
  intro b hb
  rw [fileBlocks] at hb
  split at hb
  · rcases List.mem_map.mp hb with ⟨p, _, rfl⟩
    exact ⟨ensureNL_ne_nil _, ensureNL_getLast? _⟩
  · rcases List.mem_singleton.mp hb with rfl
    exact ⟨ensureNL_ne_nil _, ensureNL_getLast? _⟩

theorem countNL_append_nl (t : Str) : countNL (t ++ ['\n']) = countNL t + 1 := by
  simp [countNL, List.count_append]

/-- `math.ceil` of an exact natural quotient agrees with the integer
formula `(a + b - 1) / b`. -/
theorem ceil_natCast_div (a b : Nat) (hb : 0 < b) :
    ⌈(a : ℚ) / (b : ℚ)⌉ = (((a + b - 1) / b : Nat) : Int) := by
  have hbQ : (0 : ℚ) < (b : ℚ) := by exact_mod_cast hb
  rw [Int.ceil_eq_iff]
  set q := (a + b - 1) / b with hq
  set r := (a + b - 1) % b with hr
  have h1 : b * q + r = a + b - 1 := Nat.div_add_mod _ _
  have h2 : r < b := Nat.mod_lt _ hb
  have hab : 1 ≤ a + b := by omega
  have h1z : (b : ℤ) * q + r = (a : ℤ) + b - 1 := by
    have hcast := congrArg (Nat.cast : Nat → ℤ) h1
    push_cast [Nat.cast_sub hab] at hcast
    linarith [hcast]
  have key1 : (a : ℤ) ≤ (q : ℤ) * b := by nlinarith [h1z, h2, Int.ofNat_nonneg r]
  have key2 : (q : ℤ) * b < (a : ℤ) + b := by nlinarith [h1z, Int.ofNat_nonneg r]
  constructor
  · push_cast
    rw [sub_lt_iff_lt_add, div_add' _ _ _ (ne_of_gt hbQ), lt_div_iff₀ hbQ]
    have hQ : ((q : ℤ) : ℚ) * ((b : ℤ) : ℚ) < (((a : ℤ) : ℚ) + ((b : ℤ) : ℚ)) := by
      exact_mod_cast key2
    push_cast at hQ
    nlinarith [hQ]
  · push_cast
    rw [div_le_iff₀ hbQ]
    have hQ : ((a : ℤ) : ℚ) ≤ ((q : ℤ) : ℚ) * ((b : ℤ) : ℚ) := by exact_mod_cast key1
    push_cast at hQ
    linarith [hQ]

theorem foldl_append_eq_flatMap {α β : Type} (k : α → List β) (gs : List α)
    (init : List β) :
    gs.foldl (fun out g => out ++ k g) init = init ++ gs.flatMap k := by
  induction gs generalizing init with
  | nil => simp
  | cons g rest ih => simp [ih, List.flatMap_cons, List.append_assoc]

/-- Filtering drops a binary file when binary content is not allowed,
so the item list is unchanged by its presence. -/
theorem buildItems_skip_binary (h : Str → Str) (cfg : RunCfg)
    (xs ys : List SrcFile) (f : SrcFile)
    (hallow : cfg.allowBinary = false) (hbin : isBinaryFile f = true) :
    buildItems h cfg (xs ++ f :: ys) = buildItems h cfg (xs ++ ys) := by
  rw [buildItems, buildItems, List.filter_append, List.filter_append,
    List.filter_cons_of_neg (by simp [hallow, hbin])]

/-- A binary file (with `allow_binary=false`) leaves the entire run
output untouched, whatever the root state: the run depends on the
candidate files only through the item list. -/
theorem runPaste_skip_binary (h : Str → Str) (cfg : RunCfg) (rs : RootState)
    (xs ys : List SrcFile) (f : SrcFile)
    (hallow : cfg.allowBinary = false) (hbin : isBinaryFile f = true) :
    runPaste h ⟨rs, xs ++ f :: ys⟩ cfg = runPaste h ⟨rs, xs ++ ys⟩ cfg := by
  cases rs with
  | missing => rfl
  | file => rfl
  | dir =>
    simp only [runPaste, mkdirFails, gatherFiles]
    rw [buildItems_skip_binary h cfg xs ys f hallow hbin]

/-- `Except.ok`-ness of a run result. -/
def runOk (r : Except Str RunOut) : Bool :=
  match r with
  | .ok _ => true
  | .error _ => false

/-- With no candidate files and a successful `mkdir`, the run still
completes, writing an index and no paste files. -/
theorem runPaste_no_candidates (h : Str → Str) (fs : FS) (cfg : RunCfg)
    (hg : gatherFiles fs = []) (hmk : mkdirFails fs cfg = false) :
    runPaste h fs cfg =
      .ok { pasteFiles := [], indexFile := indexText [] [],
            summary := summaryText [] [] cfg.idxDisplay } := by
  rw [runPaste, if_neg, hg]
  · cases hF : cfg.forceSingleFile with
    | false => rfl
    | true => rfl
  · simp [hmk]

instance : DecidableEq (Except Str RunOut)
  | .error a, .error b =>
    if h : a = b then .isTrue (by rw [h]) else .isFalse (fun he => by cases he; exact h rfl)
  | .ok a, .ok b =>
    if h : a = b then .isTrue (by rw [h]) else .isFalse (fun he => by cases he; exact h rfl)
  | .error _, .ok _ => .isFalse (fun he => by cases he)
  | .ok _, .error _ => .isFalse (fun he => by cases he)

/-! ### Concrete example data used by witnesses and counterexamples -/

/-- A stand-in digest function (the claims are about which bytes are
hashed, not about SHA-256 itself). -/
def hDummy : Str → Str := fun _ => strL "d"

/-- A plain configuration: `max_lines=2000`, everything else at the
source defaults (`keep`, no split, no target, no overflow). -/
def cfgBase : RunCfg :=
  { maxLines := 2000, allowBinary := false, targetFiles := 0, softOverflow := 0,
    forceSingleFile := false, blankLines := "keep", allowSplit := false,
    splitChunkLines := 0, outDirAbsolute := false,
    idxDisplay := strL "paste_out/index.txt" }

/-- `cfgBase` with an absolute `out_dir` (not resolved under the
root). -/
def cfgAbsOut : RunCfg := { cfgBase with outDirAbsolute := true }

def itemA : PasteItem :=
  { rel_path := strL "a.py", rendered := [], lines := 1500, dispLines := 0,
    chunkIdx := 1, chunkTot := 1 }

def itemB : PasteItem :=
  { rel_path := strL "b.py", rendered := [], lines := 1000, dispLines := 0,
    chunkIdx := 1, chunkTot := 1 }

def itemC : PasteItem :=
  { rel_path := strL "c.py", rendered := [], lines := 400, dispLines := 0,
    chunkIdx := 1, chunkTot := 1 }

/-- A text file whose first line ends in a lone carriage return. -/
def fC4 : SrcFile := { rel := strL "f.txt", content := strL "a\rb\nc\n" }

/-- Splitting config with a one-line chunk threshold. -/
def cfgSplit1 : RunCfg := { cfgBase with allowSplit := true, splitChunkLines := 1 }

/-- A three-line text file with ordinary newlines. -/
def fC4w : SrcFile := { rel := strL "g.txt", content := strL "a\nb\nc\n" }

/-- Splitting config with a two-line chunk threshold. -/
def cfgSplit2 : RunCfg := { cfgBase with allowSplit := true, splitChunkLines := 2 }

/-- A file starting with a NUL byte. -/
def fBin : SrcFile := { rel := strL "b.bin", content := ['\x00', 'B'] }

/-- An ordinary one-line Python file. -/
def fX : SrcFile := { rel := strL "x.py", content := strL "print(1)\n" }

/-- A file whose content lacks a trailing newline. -/
def fNoNL : SrcFile := { rel := strL "n.txt", content := strL "abc" }

/-- Config with `target_files=2` and `max_lines=4000`. -/
def cfgT2 : RunCfg := { cfgBase with targetFiles := 2, maxLines := 4000 }

/-- The single block the pipeline renders for `fX` under `cfgBase`. -/
def blockC5 : Block :=
  { path := strL "x.py", totalLines := 1, lines := 1, chunkIdx := 1, chunkTot := 1,
    sha := strL "d", content := strL "print(1)\n" }

/-! ### Claims -/

/-- C1: for every list of rendered blocks, every capacity value and
every soft-overflow value, each bucket produced by `_first_fit_pack`
has a total line count at most `max 1 capacity + max 0 soft_overflow`,
except a bucket holding exactly one block whose own line count exceeds
that bound. -/
theorem claim_C1_packer_bucket_bound (items : List PasteItem)
    (capacity soft_overflow : Int) (bucket : List PasteItem)
    (hb : bucket ∈ firstFitPack items capacity soft_overflow) :
    sumLines bucket ≤ max 1 capacity + max 0 soft_overflow ∨
      ∃ it, bucket = [it] ∧ it.lines > max 1 capacity + max 0 soft_overflow := by
  rw [firstFitPack] at hb
  rcases List.mem_map.mp hb with ⟨p, hp, rfl⟩
  have hinv := @foldl_packStep_inv items (max 1 capacity + max 0 soft_overflow)
    [] (by intro q hq; cases hq)
  obtain ⟨hsum, hdisj⟩ := hinv p hp
  rw [← hsum]
  exact hdisj

/-- Witness for C1: a single 1500-line block packed at capacity 1000
forms an oversized singleton bucket satisfying the disjunction. -/
theorem claim_C1_witness :
    sumLines [itemA] ≤ max 1 1000 + max 0 0 ∨
      ∃ it, [itemA] = [it] ∧ it.lines > max 1 1000 + max 0 0 :=
  claim_C1_packer_bucket_bound [itemA] 1000 0 [itemA] (by decide)

/-- C2 counterexample: with blocks of 1500, 1000 and 400 lines,
capacity 2000 and no soft overflow, first-fit does NOT produce the
buckets `[1500]` and `[1000, 400]` the claim states: the 400-line
block fits into the first bucket (1500 + 400 = 1900 ≤ 2000). -/
theorem claim_C2_counterexample :
    firstFitPack [itemA, itemB, itemC] 2000 0 ≠ [[itemA], [itemB, itemC]] := by
  decide

/-- C2 (amended): the packer first sorts blocks by descending line
count and then first-fit packs them; for blocks of 1500, 1000 and 400
lines with capacity 2000 and soft_overflow 0 the result is exactly two
buckets, `[1500, 400]` and `[1000]`, in that order. -/
theorem claim_C2_first_fit_example :
    sortBlocksDesc [itemC, itemA, itemB] = [itemA, itemB, itemC] ∧
    firstFitPack (sortBlocksDesc [itemC, itemA, itemB]) 2000 0 =
      [[itemA, itemC], [itemB]] := by
  decide

/-- C3: with `target_files > 0` the packing capacity is the minimum of
`max 1 ⌈total / target_files⌉` and `max_lines`; with `target_files = 0`
it is `max_lines` directly. -/
theorem claim_C3_capacity_resolution (cfg : RunCfg) (total : Nat) :
    (0 < cfg.targetFiles →
      capacityFor cfg total =
        min (max 1 ⌈(total : ℚ) / (cfg.targetFiles : ℚ)⌉) cfg.maxLines) ∧
    (cfg.targetFiles = 0 → capacityFor cfg total = cfg.maxLines) := by
  constructor
  · intro ht
    have htn : 0 < cfg.targetFiles.toNat := by omega
    have hcast : ((cfg.targetFiles.toNat : Nat) : ℚ) = (cfg.targetFiles : ℚ) := by
      exact_mod_cast congrArg (Int.cast : ℤ → ℚ) (Int.toNat_of_nonneg ht.le)
    rw [capacityFor, if_pos ht, ← hcast, ceil_natCast_div _ _ htn]
  · intro h0
    rw [capacityFor, if_neg (by omega)]

/-- Witness for C3: 2900 total lines over 2 target files gives
capacity `min (max 1 ⌈2900/2⌉) 4000 = 1450`; with no target files the
capacity is `max_lines`. -/
theorem claim_C3_witness :
    capacityFor cfgT2 2900 =
      min (max 1 ⌈(2900 : ℚ) / ((cfgT2.targetFiles : ℚ))⌉) cfgT2.maxLines ∧
    capacityFor cfgBase 2900 = cfgBase.maxLines :=
  ⟨(claim_C3_capacity_resolution cfgT2 2900).1 (by decide),
   (claim_C3_capacity_resolution cfgBase 2900).2 (by decide)⟩

/-- C4 counterexample: for the split file `fC4` (content `"a\rb\nc\n"`,
policy `keep`, split threshold 1 < 2 newlines) the split conditions
hold, yet concatenating the chunks' content sections does NOT
reproduce the post-policy content: the splitter treats the lone `\r`
as a line boundary and then appends a newline to the chunk
`"a\r"`, altering the content. -/
theorem claim_C4_counterexample :
    (cfgSplit1.allowSplit ∧ 0 < cfgSplit1.splitChunkLines ∧
      ((countNL (ensureNL (applyPolicy cfgSplit1.blankLines fC4.content)) : Int) >
        cfgSplit1.splitChunkLines)) ∧
    ((fileBlocks hDummy cfgSplit1 fC4).map (fun b => b.content)).flatten ≠
      ensureNL (applyPolicy cfgSplit1.blankLines fC4.content) := by
  decide

/-- C4 (amended): for every split file whose post-policy content uses
only `'\n'` as line-break character, concatenating the chunks' content
sections in chunk order reproduces the post-policy content (with its
guaranteed trailing newline) exactly, and every chunk ends at a line
boundary (its content is nonempty and ends with a newline). -/
theorem claim_C4_split_concat (h : Str → Str) (cfg : RunCfg) (f : SrcFile)
    (hsplit : cfg.allowSplit ∧ 0 < cfg.splitChunkLines ∧
      ((countNL (ensureNL (applyPolicy cfg.blankLines f.content)) : Int) >
        cfg.splitChunkLines))
    (hnl : ∀ c ∈ ensureNL (applyPolicy cfg.blankLines f.content),
      isLineBreak c = true → c = '\n') :
    ((fileBlocks h cfg f).map (fun b => b.content)).flatten =
      ensureNL (applyPolicy cfg.blankLines f.content) ∧
    ∀ b ∈ fileBlocks h cfg f, b.content ≠ [] ∧ b.content.getLast? = some '\n' := by
  constructor
  · set t := ensureNL (applyPolicy cfg.blankLines f.content) with ht
    set n := cfg.splitChunkLines.toNat with hn
    have hn0 : 0 < n := by
      have := hsplit.2.1
      omega
    set lwe := splitKE [] t with hlwe
    have hlwe_elems : ∀ l ∈ lwe, l ≠ [] ∧ l.getLast? = some '\n' := by
      intro l hl
      refine ⟨(splitKE_elem_structure [] t (by simp) l hl).1, ?_⟩
      exact splitKE_elem_lastNL [] t hnl (Or.inl (ensureNL_getLast? _)) l hl
    rw [fileBlocks_split_contents h cfg f hsplit]
    rw [← ht, ← hn, ← hlwe]
    have hchunks_elems : ∀ g ∈ chunkEvery n lwe, g ≠ [] ∧ ∀ x ∈ g, x ∈ lwe := by
      intro g hg
      obtain ⟨h1, _, h3⟩ := chunkGo_mem n hn0 lwe.length lwe le_rfl g hg
      exact ⟨h1, h3⟩
    have hcongr : (chunkEvery n lwe).map (fun g => ensureNL g.flatten) =
        (chunkEvery n lwe).map (fun g => g.flatten) := by
      refine List.map_congr_left ?_
      intro g hg
      obtain ⟨hg1, hg2⟩ := hchunks_elems g hg
      refine ensureNL_of_endsNL ?_
      rw [flatten_getLast?_eq g hg1 (fun l hl => (hlwe_elems l (hg2 l hl)).1)]
      exact (hlwe_elems _ (hg2 _ (List.getLast_mem hg1))).2
    rw [hcongr, ← List.flatten_flatten]
    rw [show (chunkEvery n lwe).flatten = lwe from chunkGo_flatten n hn0 _ _ le_rfl]
    rw [hlwe, splitKE_flatten]
    simp
  · exact fileBlocks_content_endsNL h cfg f

/-- Witness for C4: the three-line file `fC4w` split at 2 lines per
chunk satisfies the amended statement. -/
theorem claim_C4_witness :
    ((fileBlocks hDummy cfgSplit2 fC4w).map (fun b => b.content)).flatten =
      ensureNL (applyPolicy cfgSplit2.blankLines fC4w.content) ∧
    ∀ b ∈ fileBlocks hDummy cfgSplit2 fC4w,
      b.content ≠ [] ∧ b.content.getLast? = some '\n' :=
  claim_C4_split_concat hDummy cfgSplit2 fC4w (by decide) (by decide)

/-- C5: every rendered block's SHA256 header line records exactly the
digest of the content lying between the BEGIN CODE and END CODE marker
lines (the post-policy, post-split content the renderer frames). -/
theorem claim_C5_sha_over_framed_content (h : Str → Str) (cfg : RunCfg)
    (f : SrcFile) (b : Block) (hb : b ∈ fileBlocks h cfg f) :
    b.sha = h b.content ∧
    ∃ pre : Str,
      b.render = pre ++ strL "SHA256: " ++ b.sha ++ strL "\n----- BEGIN CODE -----\n" ++
        b.content ++ strL "----- END CODE -----\n===== END FILE =====\n" :=
  ⟨fileBlocks_sha h cfg f b hb, ⟨_, render_decomp b⟩⟩

/-- Witness for C5: the block rendered for `fX` under `cfgBase`. -/
theorem claim_C5_witness :
    blockC5.sha = hDummy blockC5.content ∧
    ∃ pre : Str,
      blockC5.render = pre ++ strL "SHA256: " ++ blockC5.sha ++
        strL "\n----- BEGIN CODE -----\n" ++ blockC5.content ++
        strL "----- END CODE -----\n===== END FILE =====\n" :=
  claim_C5_sha_over_framed_content hDummy cfgBase fX blockC5 (by decide)

set_option maxRecDepth 4000 in
/-- C6 counterexample: a file starting with a NUL byte is classified
binary and (with `allow_binary=false`) excluded, but contrary to the
claim it is NOT counted or reported in the run summary: the entire run
output (paste files, index, stdout) is identical to a run without the
file, and the summary contains no skipped-file line at all. -/
theorem claim_C6_counterexample :
    isBinaryFile fBin = true ∧
    runPaste hDummy ⟨.dir, [fBin]⟩ cfgBase = runPaste hDummy ⟨.dir, []⟩ cfgBase ∧
    (outOr (runPaste hDummy ⟨.dir, [fBin]⟩ cfgBase)).summary =
      [strL "\n== Oppsummering ==", strL "Totalt filer: 0", strL "Totalt linjer: 0",
       strL "Antall paste-filer: 0", strL "Index: " ++ cfgBase.idxDisplay] := by
  decide

/-- C6 (amended): a file whose leading 4096-character window contains
NUL is classified binary; with `allow_binary=false` it produces no
block, appears in no output file and no index entry — indeed the whole
run output is unchanged by its presence — but it is not counted or
reported anywhere in the run summary. -/
theorem claim_C6_binary_skip :
    (∀ f : SrcFile, '\x00' ∈ f.content.take 4096 → isBinaryFile f = true) ∧
    (∀ (h : Str → Str) (cfg : RunCfg) (rs : RootState) (xs ys : List SrcFile) (f : SrcFile),
      cfg.allowBinary = false → isBinaryFile f = true →
      runPaste h ⟨rs, xs ++ f :: ys⟩ cfg = runPaste h ⟨rs, xs ++ ys⟩ cfg) := by
  constructor
  · intro f hf
    show (f.content.take 4096).elem '\x00' = true
    exact List.elem_iff.mpr hf
  · intro h cfg rs xs ys f hal hbin
    exact runPaste_skip_binary h cfg rs xs ys f hal hbin

/-- Witness for C6: inserting the NUL-prefixed `fBin` before `fX`
changes nothing about the run. -/
theorem claim_C6_witness :
    isBinaryFile fBin = true ∧
    runPaste hDummy ⟨.dir, [fBin, fX]⟩ cfgBase = runPaste hDummy ⟨.dir, [fX]⟩ cfgBase :=
  ⟨claim_C6_binary_skip.1 fBin (by decide),
   claim_C6_binary_skip.2 hDummy cfgBase .dir [] [fX] fBin (by decide) (by decide)⟩

/-- C7 counterexample: with a nonexistent project root the run does
NOT abort: it completes normally (`Except.ok`), the candidate list is
silently empty, no paste file is produced, and an index file is still
written — refuting the claimed fatal abort. -/
theorem claim_C7_counterexample :
    runOk (runPaste hDummy ⟨.missing, [fX]⟩ cfgBase) = true ∧
    (outOr (runPaste hDummy ⟨.missing, [fX]⟩ cfgBase)).pasteFiles = [] ∧
    (outOr (runPaste hDummy ⟨.missing, [fX]⟩ cfgBase)).indexFile ≠ [] := by
  decide

/-- C7 (amended): `run_paste` performs no root-path check of its own.
With a nonexistent root every include glob matches nothing and
`mkdir(parents=True)` creates the whole output tree, so the run
completes with an empty candidate list, no paste files, and a
non-empty index file.  With a root that exists as a regular file the
run does abort — but only incidentally, from the uncaught
`NotADirectoryError` that `out_dir.mkdir` (source line 291) raises
when the output directory is relative (resolved under the root); with
an absolute output directory such a run also completes and writes the
index. -/
theorem claim_C7_no_fatal_root_check (h : Str → Str) (files : List SrcFile)
    (cfg : RunCfg) :
    (runOk (runPaste h ⟨.missing, files⟩ cfg) = true ∧
      (outOr (runPaste h ⟨.missing, files⟩ cfg)).pasteFiles = [] ∧
      (outOr (runPaste h ⟨.missing, files⟩ cfg)).indexFile ≠ []) ∧
    (cfg.outDirAbsolute = false →
      runPaste h ⟨.file, files⟩ cfg = .error (strL "NotADirectoryError")) ∧
    (cfg.outDirAbsolute = true →
      runOk (runPaste h ⟨.file, files⟩ cfg) = true ∧
        (outOr (runPaste h ⟨.file, files⟩ cfg)).pasteFiles = [] ∧
        (outOr (runPaste h ⟨.file, files⟩ cfg)).indexFile ≠ []) := by
  refine ⟨?_, ?_, ?_⟩
  · rw [runPaste_no_candidates h ⟨.missing, files⟩ cfg rfl rfl]
    refine ⟨rfl, rfl, ?_⟩
    show indexText [] [] ≠ []
    decide
  · intro habs
    rw [runPaste, if_pos]
    show mkdirFails ⟨.file, files⟩ cfg = true
    simp [mkdirFails, habs]
  · intro habs
    rw [runPaste_no_candidates h ⟨.file, files⟩ cfg rfl (by simp [mkdirFails, habs])]
    refine ⟨rfl, rfl, ?_⟩
    show indexText [] [] ≠ []
    decide

/-- Witness for C7: a concrete missing-root run completes with an
index and no paste files; a concrete file-root run with the default
relative output directory aborts with `NotADirectoryError`; the same
file-root run with an absolute output directory completes. -/
theorem claim_C7_witness :
    (runOk (runPaste hDummy ⟨.missing, [fX]⟩ cfgBase) = true ∧
      (outOr (runPaste hDummy ⟨.missing, [fX]⟩ cfgBase)).pasteFiles = [] ∧
      (outOr (runPaste hDummy ⟨.missing, [fX]⟩ cfgBase)).indexFile ≠ []) ∧
    runPaste hDummy ⟨.file, [fX]⟩ cfgBase = .error (strL "NotADirectoryError") ∧
    runOk (runPaste hDummy ⟨.file, [fX]⟩ cfgAbsOut) = true :=
  ⟨(claim_C7_no_fatal_root_check hDummy [fX] cfgBase).1,
   (claim_C7_no_fatal_root_check hDummy [fX] cfgBase).2.1 (by decide),
   ((claim_C7_no_fatal_root_check hDummy [fX] cfgAbsOut).2.2 (by decide)).1⟩

/-- C8 counterexample: under `filename_search=true`, the pattern
`"./src/x.py"` contains a path separator, so by the claim it should
pass through completely unchanged; instead the normalizer strips its
leading `./`. -/
theorem claim_C8_counterexample :
    normalizeGlobs true [strL "./src/x.py"] ≠ [strL "./src/x.py"] ∧
    normalizeGlobs true [strL "./src/x.py"] = [strL "src/x.py"] := by
  decide

/-- C8 (amended): every pattern is first trimmed of surrounding
whitespace (empty results are dropped) and a leading `./` is removed;
then, under filename search, a normalized pattern with no `/` and no
wildcard is replaced by the bare name followed by its `**/` variant,
and every other pattern passes through as its normalized form, in
order. -/
theorem claim_C8_normalizer (filenameSearch : Bool) (globs : List Str) :
    normalizeGlobs filenameSearch globs =
      globs.flatMap (fun g =>
        if pyStrip g = [] then []
        else if filenameSearch && isPureFilename (dropDotSlash (pyStrip g)) then
          [dropDotSlash (pyStrip g), strL "**/" ++ dropDotSlash (pyStrip g)]
        else [dropDotSlash (pyStrip g)]) := by
  rw [normalizeGlobs]
  rw [show (fun (out : List Str) (g : Str) =>
      let s := pyStrip g
      if s = [] then out
      else
        let s := dropDotSlash s
        if filenameSearch && isPureFilename s then out ++ [s, strL "**/" ++ s]
        else out ++ [s]) = (fun out g => out ++
          (if pyStrip g = [] then []
           else if filenameSearch && isPureFilename (dropDotSlash (pyStrip g)) then
             [dropDotSlash (pyStrip g), strL "**/" ++ dropDotSlash (pyStrip g)]
           else [dropDotSlash (pyStrip g)])) from ?_, foldl_append_eq_flatMap]
  · simp
  · funext out g
    by_cases h1 : pyStrip g = []
    · simp [h1]
    · simp only [h1, if_false]
      split
      · simp
      · simp

/-- C9: for a split file, every chunk block has at most
`split_chunk_lines` newline characters in its content, its LINES field
equals its own content's line count, its TOTAL_LINES field equals the
file's full post-policy line count, its CHUNK total is the number of
chunks, and the CHUNK indices are contiguous from 1 to the number of
chunks. -/
theorem claim_C9_chunk_invariants (h : Str → Str) (cfg : RunCfg) (f : SrcFile)
    (hsplit : cfg.allowSplit ∧ 0 < cfg.splitChunkLines ∧
      ((countNL (ensureNL (applyPolicy cfg.blankLines f.content)) : Int) >
        cfg.splitChunkLines)) :
    (∀ b ∈ fileBlocks h cfg f,
        countNL b.content ≤ cfg.splitChunkLines.toNat ∧
        b.lines = countNL b.content ∧
        b.totalLines = countNL (ensureNL (applyPolicy cfg.blankLines f.content)) ∧
        b.chunkTot = (fileBlocks h cfg f).length) ∧
    (fileBlocks h cfg f).map (fun b => b.chunkIdx) =
      List.range' 1 (fileBlocks h cfg f).length := by
  set t := ensureNL (applyPolicy cfg.blankLines f.content) with ht
  set n := cfg.splitChunkLines.toNat with hn
  have hn0 : 0 < n := by
    have := hsplit.2.1
    omega
  set lwe := splitKE [] t with hlwe
  have hlen : (fileBlocks h cfg f).length = (chunkEvery n lwe).length := by
    rw [fileBlocks]
    simp only [if_pos hsplit]
    rw [List.length_map, List.enum_length]
  constructor
  · intro b hb
    rw [fileBlocks] at hb
    simp only [if_pos hsplit] at hb
    rcases List.mem_map.mp hb with ⟨p, hp, rfl⟩
    have hpmem : p.2 ∈ chunkEvery n lwe := by
      have hsnd : p.2 ∈ (chunkEvery n lwe).enum.map Prod.snd := List.mem_map_of_mem _ hp
      rwa [List.enum_map_snd] at hsnd
    obtain ⟨hg1, hg2, hg3⟩ := chunkGo_mem n hn0 lwe.length lwe le_rfl p.2 hpmem
    refine ⟨?_, rfl, rfl, hlen.symm⟩
    refine countNL_chunk_le p.2 n hn0 hg2 ?_
    intro l hl
    exact splitKE_elem_structure [] t (by simp) l (hg3 l hl)
  · rw [fileBlocks]
    simp only [if_pos hsplit]
    rw [List.map_map]
    have hfun : ((fun b : Block => b.chunkIdx) ∘ fun p : Nat × List Str =>
        ({ path := f.rel, totalLines := countNL t, lines := countNL (ensureNL p.2.flatten),
           chunkIdx := p.1 + 1, chunkTot := (chunkEvery n lwe).length,
           sha := h (ensureNL p.2.flatten), content := ensureNL p.2.flatten } : Block)) =
        (fun p : Nat × List Str => p.1 + 1) := rfl
    rw [hfun]
    have h2 : (fun p : Nat × List Str => p.1 + 1) =
        ((fun i => i + 1) ∘ Prod.fst) := rfl
    rw [h2, ← List.map_map, List.enum_map_fst, List.length_map, List.enum_length,
      List.range'_eq_map_range]
    simp [Nat.add_comm]

/-- Witness for C9: the three-line file `fC4w` split at 2 lines per
chunk satisfies every chunk invariant. -/
theorem claim_C9_witness :
    (∀ b ∈ fileBlocks hDummy cfgSplit2 fC4w,
        countNL b.content ≤ cfgSplit2.splitChunkLines.toNat ∧
        b.lines = countNL b.content ∧
        b.totalLines = countNL (ensureNL (applyPolicy cfgSplit2.blankLines fC4w.content)) ∧
        b.chunkTot = (fileBlocks hDummy cfgSplit2 fC4w).length) ∧
    (fileBlocks hDummy cfgSplit2 fC4w).map (fun b => b.chunkIdx) =
      List.range' 1 (fileBlocks hDummy cfgSplit2 fC4w).length :=
  claim_C9_chunk_invariants hDummy cfgSplit2 fC4w (by decide)

/-- C10: when the post-policy content does not end with a newline,
exactly one newline is appended before counting and hashing; every
block's content section therefore ends with a newline, the unsplit
block's LINES value counts the unterminated final line as one line,
its recorded digest is taken over the content with the appended
newline, and (under the `keep` policy) that digest input differs from
the file's raw content. -/
theorem claim_C10_trailing_newline (h : Str → Str) (cfg : RunCfg) (f : SrcFile)
    (ht : (applyPolicy cfg.blankLines f.content).getLast? ≠ some '\n') :
    ensureNL (applyPolicy cfg.blankLines f.content) =
      applyPolicy cfg.blankLines f.content ++ ['\n'] ∧
    (∀ b ∈ fileBlocks h cfg f, b.content ≠ [] ∧ b.content.getLast? = some '\n') ∧
    (¬(cfg.allowSplit ∧ 0 < cfg.splitChunkLines ∧
        ((countNL (ensureNL (applyPolicy cfg.blankLines f.content)) : Int) >
          cfg.splitChunkLines)) →
      fileBlocks h cfg f =
        [{ path := f.rel,
           totalLines := countNL (applyPolicy cfg.blankLines f.content) + 1,
           lines := countNL (applyPolicy cfg.blankLines f.content) + 1,
           chunkIdx := 1, chunkTot := 1,
           sha := h (applyPolicy cfg.blankLines f.content ++ ['\n']),
           content := applyPolicy cfg.blankLines f.content ++ ['\n'] }]) ∧
    (cfg.blankLines ≠ "drop" → cfg.blankLines ≠ "collapse" →
      applyPolicy cfg.blankLines f.content ++ ['\n'] ≠ f.content) := by
  have happ : ensureNL (applyPolicy cfg.blankLines f.content) =
      applyPolicy cfg.blankLines f.content ++ ['\n'] := by
    rw [ensureNL, if_neg ht]
  refine ⟨happ, fileBlocks_content_endsNL h cfg f, ?_, ?_⟩
  · intro hnosplit
    rw [fileBlocks, if_neg hnosplit, happ, countNL_append_nl]
  · intro hd hc
    have hkeep : applyPolicy cfg.blankLines f.content = f.content := by
      rw [applyPolicy, if_neg (by simpa using hd), if_neg (by simpa using hc)]
    rw [hkeep]
    intro heq
    have hlen := congrArg List.length heq
    simp at hlen

/-- Witness for C10: the file `fNoNL` (content `"abc"`, no trailing
newline) under the default configuration. -/
theorem claim_C10_witness :
    ensureNL (applyPolicy cfgBase.blankLines fNoNL.content) =
      applyPolicy cfgBase.blankLines fNoNL.content ++ ['\n'] ∧
    (∀ b ∈ fileBlocks hDummy cfgBase fNoNL,
      b.content ≠ [] ∧ b.content.getLast? = some '\n') ∧
    (¬(cfgBase.allowSplit ∧ 0 < cfgBase.splitChunkLines ∧
        ((countNL (ensureNL (applyPolicy cfgBase.blankLines fNoNL.content)) : Int) >
          cfgBase.splitChunkLines)) →
      fileBlocks hDummy cfgBase fNoNL =
        [{ path := fNoNL.rel,
           totalLines := countNL (applyPolicy cfgBase.blankLines fNoNL.content) + 1,
           lines := countNL (applyPolicy cfgBase.blankLines fNoNL.content) + 1,
           chunkIdx := 1, chunkTot := 1,
           sha := hDummy (applyPolicy cfgBase.blankLines fNoNL.content ++ ['\n']),
           content := applyPolicy cfgBase.blankLines fNoNL.content ++ ['\n'] }]) ∧
    (cfgBase.blankLines ≠ "drop" → cfgBase.blankLines ≠ "collapse" →
      applyPolicy cfgBase.blankLines fNoNL.content ++ ['\n'] ≠ fNoNL.content) :=
  claim_C10_trailing_newline hDummy cfgBase fNoNL (by decide)
